import Mathlib

/-!
A shallow embedding of the cmvc-vscode extension (`src/extension.ts` and the
earlier single-view variant) together with proofs about its specified
behaviour.

The embedding is pure: user-visible messages, external process invocations
and document display are recorded as an explicit list of `Effect`s, the
result of the external `File` process is an explicit `ProcResult` argument,
and the host's `workspaceState` key/value store is an explicit `Storage`
function.
-/

/-- The three-field CMVC configuration held by `CMVCService`
(interface `CMVCConfig` in `src/extension.ts`). -/
structure CMVCConfig where
  family : String
  release : String
  defect : String
deriving DecidableEq

/-- Observable effects of a service operation or command handler:
`vscode.window.showErrorMessage`, `vscode.window.showInformationMessage`,
spawning the external `File` process via `execAsync`, opening a new text
document whose content is the process stdout
(`openTextDocument` followed by `showTextDocument`), and refreshing the
files tree view. -/
inductive Effect where
  | showError (msg : String)
  | showInfo (msg : String)
  | execute (command : String)
  | openDocument (content : String)
  | refresh
deriving DecidableEq

/-- Outcome of `execAsync`: either resolution with captured stdout/stderr,
or rejection (spawn failure / non-zero exit), caught by the `catch` block
and stringified into `msg`. -/
inductive ProcResult where
  | ok (stdout stderr : String)
  | err (msg : String)

/-- Model of Node's `path.basename` for POSIX paths: strip trailing
slashes, then keep everything after the last remaining slash. -/
def basename (p : String) : String :=
  let cs := p.toList.reverse.dropWhile (fun c => c == '/')
  String.mk (cs.takeWhile (fun c => c != '/')).reverse

/-- The shell command built by `CMVCService.checkin` (line 67 of
`src/extension.ts`). -/
def checkinCommand (cfg : CMVCConfig) (filePath : String) : String :=
  "File -checkin \"" ++ filePath ++ "\" -defect \"" ++ cfg.defect ++
    "\" -release \"" ++ cfg.release ++ "\" -family \"" ++ cfg.family ++ "\""

/-- The shell command built by `CMVCService.checkout` (line 87). -/
def checkoutCommand (cfg : CMVCConfig) (filePath : String) : String :=
  "File -checkout \"" ++ filePath ++ "\" -defect \"" ++ cfg.defect ++
    "\" -release \"" ++ cfg.release ++ "\" -family \"" ++ cfg.family ++ "\""

/-- The shell command built by `CMVCService.view` (line 107); no `-defect`
argument. -/
def viewCommand (cfg : CMVCConfig) (filePath : String) : String :=
  "File -view \"" ++ filePath ++ "\" -release \"" ++ cfg.release ++
    "\" -family \"" ++ cfg.family ++ "\""

/-- Error shown when checkin/checkout preconditions fail. -/
def setAllMsg : String := "Please set Family, Release, and Defect values first."

/-- Error shown when the view precondition fails. -/
def setFamilyReleaseMsg : String := "Please set Family and Release values first."

/-- `CMVCService.checkin`.  In TypeScript `!s` on a string is true exactly
when the string is empty, so the guard `!family || !release || !defect`
becomes the emptiness disjunction.  The method never assigns to
`this.config`, so the configuration is returned unchanged. -/
def checkin (cfg : CMVCConfig) (filePath : String) (proc : ProcResult) :
    List Effect × CMVCConfig :=
  if cfg.family = "" ∨ cfg.release = "" ∨ cfg.defect = "" then
    ([Effect.showError setAllMsg], cfg)
  else
    let command := checkinCommand cfg filePath
    let rest :=
      match proc with
      | ProcResult.ok _ stderr =>
        if stderr = "" then
          [Effect.showInfo ("Successfully checked in: " ++ basename filePath)]
        else
          [Effect.showError ("Checkin failed: " ++ stderr)]
      | ProcResult.err e => [Effect.showError ("Checkin failed: " ++ e)]
    (Effect.execute command :: rest, cfg)

/-- `CMVCService.checkout`; identical shape to `checkin` with its own
command and messages. -/
def checkout (cfg : CMVCConfig) (filePath : String) (proc : ProcResult) :
    List Effect × CMVCConfig :=
  if cfg.family = "" ∨ cfg.release = "" ∨ cfg.defect = "" then
    ([Effect.showError setAllMsg], cfg)
  else
    let command := checkoutCommand cfg filePath
    let rest :=
      match proc with
      | ProcResult.ok _ stderr =>
        if stderr = "" then
          [Effect.showInfo ("Successfully checked out: " ++ basename filePath)]
        else
          [Effect.showError ("Checkout failed: " ++ stderr)]
      | ProcResult.err e => [Effect.showError ("Checkout failed: " ++ e)]
    (Effect.execute command :: rest, cfg)

/-- `CMVCService.view`: guards only family and release; on empty stderr the
stdout becomes the content of a newly opened text document. -/
def view (cfg : CMVCConfig) (filePath : String) (proc : ProcResult) :
    List Effect × CMVCConfig :=
  if cfg.family = "" ∨ cfg.release = "" then
    ([Effect.showError setFamilyReleaseMsg], cfg)
  else
    let command := viewCommand cfg filePath
    let rest :=
      match proc with
      | ProcResult.ok stdout stderr =>
        if stderr = "" then
          [Effect.openDocument stdout]
        else
          [Effect.showError ("View failed: " ++ stderr)]
      | ProcResult.err e => [Effect.showError ("View failed: " ++ e)]
    (Effect.execute command :: rest, cfg)

/-- Whether a trace of effects contains an external process invocation. -/
def invokesProcess (effects : List Effect) : Bool :=
  effects.any fun e =>
    match e with
    | Effect.execute _ => true
    | _ => false

/-- The host's `workspaceState` key/value store: a partial map from keys to
stored string values. -/
abbrev Storage := String → Option String

/-- `workspaceState.get(key, dflt)`. -/
def wsGet (s : Storage) (key dflt : String) : String := (s key).getD dflt

/-- `workspaceState.update(key, value)`. -/
def wsUpdate (s : Storage) (key value : String) : Storage :=
  fun k => if k = key then some value else s k

/-- The state owned by `CMVCService`: its in-memory config plus the
persistent store it reads and writes. -/
structure ServiceState where
  config : CMVCConfig
  storage : Storage

/-- `CMVCService.loadConfig`: reads the three namespaced keys with default
`''`. -/
def loadConfig (s : Storage) : CMVCConfig :=
  { family := wsGet s "cmvc.family" ""
    release := wsGet s "cmvc.release" ""
    defect := wsGet s "cmvc.defect" "" }

/-- `CMVCService.saveConfig`: writes all three fields under their keys. -/
def saveConfig (cfg : CMVCConfig) (s : Storage) : Storage :=
  wsUpdate (wsUpdate (wsUpdate s "cmvc.family" cfg.family)
    "cmvc.release" cfg.release) "cmvc.defect" cfg.defect

/-- `CMVCService.getConfig` returns a copy of the three fields; in the pure
model this is the config component of the state. -/
def getConfig (st : ServiceState) : CMVCConfig := st.config

/-- `CMVCService.setFamily`: overwrite the family field, then persist all
three fields. -/
def setFamily (value : String) (st : ServiceState) : ServiceState :=
  let cfg := { st.config with family := value }
  { config := cfg, storage := saveConfig cfg st.storage }

/-- `CMVCService.setRelease`. -/
def setRelease (value : String) (st : ServiceState) : ServiceState :=
  let cfg := { st.config with release := value }
  { config := cfg, storage := saveConfig cfg st.storage }

/-- `CMVCService.setDefect`. -/
def setDefect (value : String) (st : ServiceState) : ServiceState :=
  let cfg := { st.config with defect := value }
  { config := cfg, storage := saveConfig cfg st.storage }

/-- The argument passed to the `cmvc.checkin` / `cmvc.checkout` /
`cmvc.view` / `cmvc.create` command handlers.  The handlers guard against a
missing item (`undefined`) and against an item without a `resourceUri`, so
the model keeps both levels optional; when present, the `resourceUri` is
represented by its `fsPath`. -/
structure MaybeItem where
  resourceUri : Option String

/-- The `cmvc.checkin` command handler:
`if (item && item.resourceUri) cmvcService.checkin(item.resourceUri.fsPath)`.
When the guard fails nothing at all happens. -/
def checkinHandler (item : Option MaybeItem) (cfg : CMVCConfig)
    (proc : ProcResult) : List Effect × CMVCConfig :=
  match item with
  | some it =>
    match it.resourceUri with
    | some fsPath => checkin cfg fsPath proc
    | none => ([], cfg)
  | none => ([], cfg)

/-- The `cmvc.checkout` command handler. -/
def checkoutHandler (item : Option MaybeItem) (cfg : CMVCConfig)
    (proc : ProcResult) : List Effect × CMVCConfig :=
  match item with
  | some it =>
    match it.resourceUri with
    | some fsPath => checkout cfg fsPath proc
    | none => ([], cfg)
  | none => ([], cfg)

/-- The `cmvc.view` command handler. -/
def viewHandler (item : Option MaybeItem) (cfg : CMVCConfig)
    (proc : ProcResult) : List Effect × CMVCConfig :=
  match item with
  | some it =>
    match it.resourceUri with
    | some fsPath => view cfg fsPath proc
    | none => ([], cfg)
  | none => ([], cfg)

/-- The shell command built by the `cmvc.create` handler (line 460 of
`src/extension.ts`). -/
def createCommand (cfg : CMVCConfig) (fsPath component : String) : String :=
  "File -create \"" ++ fsPath ++ "\" -component \"" ++ component ++
    "\" -defect \"" ++ cfg.defect ++ "\" -release \"" ++ cfg.release ++
    "\" -family \"" ++ cfg.family ++ "\""

/-- The `cmvc.create` command handler.  `userInput` is the result of the
component input box (`none` models cancellation).  The TypeScript guard
`if (!component)` rejects both cancellation and the empty string.  Note
that the handler reads the config only to interpolate it into the command:
there is no non-emptiness check on family/release/defect. -/
def createHandler (item : Option MaybeItem) (st : ServiceState)
    (userInput : Option String) (proc : ProcResult) :
    List Effect × Storage :=
  match item with
  | none => ([Effect.showError "No file selected for creation."], st.storage)
  | some it =>
    match it.resourceUri with
    | none => ([Effect.showError "No file selected for creation."], st.storage)
    | some fsPath =>
      match userInput with
      | none => ([Effect.showError "Component is required."], st.storage)
      | some component =>
        if component = "" then
          ([Effect.showError "Component is required."], st.storage)
        else
          let storage1 := wsUpdate st.storage "cmvc.lastComponent" component
          let command := createCommand st.config fsPath component
          let rest :=
            match proc with
            | ProcResult.ok _ stderr =>
              if stderr = "" then
                [Effect.showInfo ("Successfully created: " ++ fsPath),
                 Effect.refresh]
              else
                [Effect.showError ("Create failed: " ++ stderr)]
            | ProcResult.err e => [Effect.showError ("Create failed: " ++ e)]
          (Effect.execute command :: rest, storage1)

/-- A display node of the files tree: `FolderItem` or `FileItem` with its
label (the entry name) and the full filesystem path.  The `FileItem`
tooltip (path relative to the workspace root) is derived display data and
is not modelled. -/
inductive PNode where
  | folder (name fullPath : String)
  | file (name fullPath : String)
deriving DecidableEq

/-- A filesystem entry as seen by the traversal: a file, or a directory
whose own listing either reads successfully or fails (the `Except.error`
case models `fs.readdirSync` throwing, e.g. permission denied). -/
inductive FSEntry where
  | file (name : String)
  | dir (name : String) (contents : Except String (List FSEntry))

/-- `path.join(dirPath, name)` for the simple one-segment joins performed
here. -/
def pjoin (dirPath name : String) : String := dirPath ++ "/" ++ name

/-- Model of the JavaScript test `name.startsWith('.')`: the first
character, if any, is a dot. -/
def startsWithDot (name : String) : Bool := name.toList.take 1 == ['.']

/-- The directory filter used by both providers:
`file !== 'node_modules' && file !== '.git' && !file.startsWith('.')`.
It is only ever applied to entries whose `stat` says directory. -/
def keepDir (name : String) : Bool :=
  name != "node_modules" && name != ".git" && !(startsWithDot name)

/-- Lexicographic comparison on strings as a Bool, modelling JavaScript's
default string `sort()`. -/
def strLe (a b : String) : Bool := decide (a ≤ b)

/-- The `directories` array collected by
`CMVCFilesProvider.getDirectoryContents`: names of sub-directories passing
the filter, in readdir order. -/
def directoryNames (entries : List FSEntry) : List String :=
  entries.filterMap fun e =>
    match e with
    | FSEntry.dir n _ => if keepDir n then some n else none
    | FSEntry.file _ => none

/-- The `filesList` array collected by the same function: names of all
non-directory entries, with no filtering whatsoever. -/
def fileNames (entries : List FSEntry) : List String :=
  entries.filterMap fun e =>
    match e with
    | FSEntry.file n => some n
    | FSEntry.dir _ _ => none

/-- The items pushed by `getDirectoryContents` for one successfully read
directory: sorted folder items followed by sorted file items. -/
def directoryItems (dirPath : String) (entries : List FSEntry) : List PNode :=
  ((directoryNames entries).mergeSort strLe).map
    (fun n => PNode.folder n (pjoin dirPath n)) ++
  ((fileNames entries).mergeSort strLe).map
    (fun n => PNode.file n (pjoin dirPath n))

/-- `CMVCFilesProvider.getDirectoryContents` including its `try`/`catch`:
on a read error it contributes no items and logs
`console.error('Error reading directory:', error)`. -/
def getDirectoryContents (dirPath : String)
    (read : Except String (List FSEntry)) : List PNode × List String :=
  match read with
  | Except.ok entries => (directoryItems dirPath entries, [])
  | Except.error e => ([], ["Error reading directory: " ++ e])

mutual

/-- `CMVCExplorerProvider.getFilesRecursively` (the eager variant in the
single-view extension source): one call per directory, with that call's
`try`/`catch` turning a failed read into no items plus a log line. -/
def getFilesRecursively (dirPath : String)
    (read : Except String (List FSEntry)) : List PNode × List String :=
  match read with
  | Except.error e => ([], ["Error reading directory: " ++ e])
  | Except.ok entries => eagerEntries dirPath entries

/-- The loop body of `getFilesRecursively` over the entries of one
directory: every file is emitted; a directory passing the filter is
emitted and immediately recursed into, flattening the whole subtree into
the same list. -/
def eagerEntries : String → List FSEntry → List PNode × List String
  | _, [] => ([], [])
  | d, FSEntry.file n :: rest =>
    let r := eagerEntries d rest
    (PNode.file n (pjoin d n) :: r.1, r.2)
  | d, FSEntry.dir n sub :: rest =>
    if keepDir n then
      let s := getFilesRecursively (pjoin d n) sub
      let r := eagerEntries d rest
      (PNode.folder n (pjoin d n) :: (s.1 ++ r.1), s.2 ++ r.2)
    else
      eagerEntries d rest

end

mutual

/-- All nodes reachable in the lazy variant (`CMVCFilesProvider`) starting
from one directory: the host first asks for that directory's listing
(`getChildren` with no element, or with a folder element), then may ask
for the children of every folder node in it. -/
def lazyReachable (dirPath : String)
    (read : Except String (List FSEntry)) : List PNode :=
  match read with
  | Except.error _ => []
  | Except.ok entries => directoryItems dirPath entries ++ lazyExpand dirPath entries

/-- Reachable nodes strictly below the folders of one directory listing:
`getChildren` is only ever called on folder nodes, which exist exactly for
the sub-directories passing the filter. -/
def lazyExpand : String → List FSEntry → List PNode
  | _, [] => []
  | d, FSEntry.file _ :: rest => lazyExpand d rest
  | d, FSEntry.dir n sub :: rest =>
    if keepDir n then
      lazyReachable (pjoin d n) sub ++ lazyExpand d rest
    else
      lazyExpand d rest

end

/-- Whether a tree node is a file node. -/
def PNode.isFile : PNode → Bool
  | PNode.file _ _ => true
  | PNode.folder _ _ => false

/-- Whether a tree node is a folder node. -/
def PNode.isFolder : PNode → Bool
  | PNode.folder _ _ => true
  | PNode.file _ _ => false

/-- The name of a folder node, if any. -/
def PNode.folderName : PNode → Option String
  | PNode.folder n _ => some n
  | PNode.file _ _ => none

/-- The name of a file node, if any. -/
def PNode.fileName : PNode → Option String
  | PNode.file n _ => some n
  | PNode.folder _ _ => none

/-- Claim C1: for every file path, if any of the three config fields is the
empty string then `checkin` and `checkout` show the precondition error and
return without invoking the external process, and if family or release is
empty then `view` does likewise; in all such cases the config state is
unchanged. -/
theorem empty_config_blocks_operations (cfg : CMVCConfig) (fp : String)
    (proc : ProcResult) :
    ((cfg.family = "" ∨ cfg.release = "" ∨ cfg.defect = "") →
      checkin cfg fp proc = ([Effect.showError setAllMsg], cfg) ∧
      checkout cfg fp proc = ([Effect.showError setAllMsg], cfg) ∧
      invokesProcess (checkin cfg fp proc).1 = false ∧
      invokesProcess (checkout cfg fp proc).1 = false) ∧
    ((cfg.family = "" ∨ cfg.release = "") →
      view cfg fp proc = ([Effect.showError setFamilyReleaseMsg], cfg) ∧
      invokesProcess (view cfg fp proc).1 = false) := by
  constructor
  · intro h
    rw [checkin.eq_def, checkout.eq_def, if_pos h, if_pos h]
    refine ⟨rfl, rfl, rfl, rfl⟩
  · intro h
    rw [view.eq_def, if_pos h]
    exact ⟨rfl, rfl⟩

/-- Concrete instance of `empty_config_blocks_operations` with an empty
family field. -/
theorem empty_config_blocks_operations_w :
    checkin ⟨"", "R1", "D1"⟩ "/ws/a.txt" (ProcResult.ok "" "") =
      ([Effect.showError setAllMsg], ⟨"", "R1", "D1"⟩) ∧
    view ⟨"", "R1", "D1"⟩ "/ws/a.txt" (ProcResult.ok "" "") =
      ([Effect.showError setFamilyReleaseMsg], ⟨"", "R1", "D1"⟩) := by
  have h := empty_config_blocks_operations ⟨"", "R1", "D1"⟩ "/ws/a.txt"
    (ProcResult.ok "" "")
  exact ⟨(h.1 (Or.inl rfl)).1, (h.2 (Or.inl rfl)).1⟩

/-- Claim C2: with config family F1, release R1, defect D1, checkin of
`/ws/a.txt` builds exactly the specified shell command, and on empty stderr
(for any stdout) the user sees the info message built from the base name of
the path. -/
theorem checkin_example_command_and_message (stdout : String) :
    checkinCommand ⟨"F1", "R1", "D1"⟩ "/ws/a.txt" =
      "File -checkin \"/ws/a.txt\" -defect \"D1\" -release \"R1\" -family \"F1\"" ∧
    (checkin ⟨"F1", "R1", "D1"⟩ "/ws/a.txt" (ProcResult.ok stdout "")).1 =
      [Effect.execute
        "File -checkin \"/ws/a.txt\" -defect \"D1\" -release \"R1\" -family \"F1\"",
       Effect.showInfo "Successfully checked in: a.txt"] := by
  refine ⟨rfl, ?_⟩
  simp [checkin, checkinCommand, basename]

/-- Claim C5: setting any one config field and reloading the configuration
from persistent storage yields the set value for that field. -/
theorem set_then_reload_roundtrip (v : String) (st : ServiceState) :
    (loadConfig (setFamily v st).storage).family = v ∧
    (loadConfig (setRelease v st).storage).release = v ∧
    (loadConfig (setDefect v st).storage).defect = v := by
  refine ⟨?_, ?_, ?_⟩ <;>
    simp [loadConfig, setFamily, setRelease, setDefect, saveConfig, wsGet, wsUpdate]

/-- Claim C6: each setter overwrites exactly its own field of the config
visible through `getConfig` and leaves the other two fields unchanged. -/
theorem setters_touch_only_their_field (v : String) (st : ServiceState) :
    getConfig (setFamily v st) =
      { getConfig st with family := v } ∧
    getConfig (setRelease v st) =
      { getConfig st with release := v } ∧
    getConfig (setDefect v st) =
      { getConfig st with defect := v } := by
  exact ⟨rfl, rfl, rfl⟩

/-- Claim C4: for each operation under its own precondition (all three
fields non-empty for checkin/checkout, family and release non-empty for
view), non-empty stderr makes the operation report a failure message
containing that stderr; with empty stderr, checkin and checkout discard
stdout and report a success message, while view opens stdout as the
content of a new text document. -/
theorem stderr_decides_outcome (cfg : CMVCConfig) (fp stdout stderr : String)
    (hf : cfg.family ≠ "") (hr : cfg.release ≠ "") :
    (cfg.defect ≠ "" → stderr ≠ "" →
      Effect.showError ("Checkin failed: " ++ stderr) ∈
        (checkin cfg fp (ProcResult.ok stdout stderr)).1 ∧
      Effect.showError ("Checkout failed: " ++ stderr) ∈
        (checkout cfg fp (ProcResult.ok stdout stderr)).1) ∧
    (stderr ≠ "" →
      Effect.showError ("View failed: " ++ stderr) ∈
        (view cfg fp (ProcResult.ok stdout stderr)).1) ∧
    (cfg.defect ≠ "" →
      (checkin cfg fp (ProcResult.ok stdout "")).1 =
        [Effect.execute (checkinCommand cfg fp),
         Effect.showInfo ("Successfully checked in: " ++ basename fp)] ∧
      (checkout cfg fp (ProcResult.ok stdout "")).1 =
        [Effect.execute (checkoutCommand cfg fp),
         Effect.showInfo ("Successfully checked out: " ++ basename fp)]) ∧
    (view cfg fp (ProcResult.ok stdout "")).1 =
      [Effect.execute (viewCommand cfg fp),
       Effect.openDocument stdout] := by
  have hv : ¬(cfg.family = "" ∨ cfg.release = "") := by tauto
  refine ⟨?_, ?_, ?_, ?_⟩
  · intro hd hs
    have hc : ¬(cfg.family = "" ∨ cfg.release = "" ∨ cfg.defect = "") := by
      tauto
    constructor <;> simp [checkin, checkout, hc, hs]
  · intro hs
    simp [view, hv, hs]
  · intro hd
    have hc : ¬(cfg.family = "" ∨ cfg.release = "" ∨ cfg.defect = "") := by
      tauto
    constructor <;> simp [checkin, checkout, hc]
  · simp [view, hv]

/-- Concrete instance of `stderr_decides_outcome`: stderr "boom" is
reported as a checkin failure, and view — with an empty defect field,
which its precondition does not require — on empty stderr opens the
stdout "out". -/
theorem stderr_decides_outcome_w :
    Effect.showError ("Checkin failed: " ++ "boom") ∈
      (checkin ⟨"F1", "R1", "D1"⟩ "/ws/a.txt" (ProcResult.ok "out" "boom")).1 ∧
    (view ⟨"F1", "R1", ""⟩ "/ws/a.txt" (ProcResult.ok "out" "")).1 =
      [Effect.execute (viewCommand ⟨"F1", "R1", ""⟩ "/ws/a.txt"),
       Effect.openDocument "out"] := by
  have h1 := stderr_decides_outcome ⟨"F1", "R1", "D1"⟩ "/ws/a.txt" "out" "boom"
    (by decide) (by decide)
  have h2 := stderr_decides_outcome ⟨"F1", "R1", ""⟩ "/ws/a.txt" "out" ""
    (by decide) (by decide)
  exact ⟨(h1.1 (by decide) (by decide)).1, h2.2.2.2⟩

/-- Claim C9: the create handler performs no config emptiness check: for
any service state (in particular one whose three config fields are all
empty strings), once the user supplies a non-empty component the
`File -create` command interpolating the stored config values is executed;
a missing or empty component aborts before invocation. -/
theorem create_checks_only_component (fsPath component : String)
    (st : ServiceState) (proc : ProcResult) (hc : component ≠ "") :
    Effect.execute (createCommand st.config fsPath component) ∈
      (createHandler (some ⟨some fsPath⟩) st (some component) proc).1 ∧
    createCommand ⟨"", "", ""⟩ "/ws/new.txt" "comp" =
      "File -create \"/ws/new.txt\" -component \"comp\" -defect \"\" -release \"\" -family \"\"" ∧
    invokesProcess (createHandler (some ⟨some fsPath⟩) st none proc).1 = false ∧
    invokesProcess (createHandler (some ⟨some fsPath⟩) st (some "") proc).1 = false := by
  refine ⟨?_, rfl, rfl, rfl⟩
  simp [createHandler, hc]

/-- Concrete instance of `create_checks_only_component`: with all three
config fields empty the create command still runs. -/
theorem create_checks_only_component_w :
    Effect.execute (createCommand ⟨"", "", ""⟩ "/ws/new.txt" "comp") ∈
      (createHandler (some ⟨some "/ws/new.txt"⟩) ⟨⟨"", "", ""⟩, fun _ => none⟩
        (some "comp") (ProcResult.ok "" "")).1 :=
  (create_checks_only_component "/ws/new.txt" "comp"
    ⟨⟨"", "", ""⟩, fun _ => none⟩ (ProcResult.ok "" "") (by decide)).1

/-- Claim C10: a checkin/checkout/view command handler invoked with no
item, or with an item lacking a resourceUri, performs nothing at all: no
service operation, no external process, no user-facing message. -/
theorem handlers_ignore_missing_item (item : Option MaybeItem)
    (cfg : CMVCConfig) (proc : ProcResult)
    (h : item = none ∨ ∃ it, item = some it ∧ it.resourceUri = none) :
    (checkinHandler item cfg proc).1 = [] ∧
    (checkoutHandler item cfg proc).1 = [] ∧
    (viewHandler item cfg proc).1 = [] := by
  rcases h with rfl | ⟨it, rfl, hu⟩
  · exact ⟨rfl, rfl, rfl⟩
  · cases it
    simp_all [checkinHandler, checkoutHandler, viewHandler]

/-- Concrete instance of `handlers_ignore_missing_item` with an undefined
item. -/
theorem handlers_ignore_missing_item_w :
    (checkinHandler none ⟨"F1", "R1", "D1"⟩ (ProcResult.ok "" "")).1 = [] ∧
    (checkoutHandler none ⟨"F1", "R1", "D1"⟩ (ProcResult.ok "" "")).1 = [] ∧
    (viewHandler none ⟨"F1", "R1", "D1"⟩ (ProcResult.ok "" "")).1 = [] :=
  handlers_ignore_missing_item none ⟨"F1", "R1", "D1"⟩ (ProcResult.ok "" "")
    (Or.inl rfl)

/-- `strLe` decides the `≤` order on strings. -/
theorem strLe_iff {a b : String} : strLe a b = true ↔ a ≤ b := by
  simp [strLe]

/-- `strLe` is transitive. -/
theorem strLe_trans : ∀ a b c : String, strLe a b → strLe b c → strLe a c := by
  intro a b c hab hbc
  exact strLe_iff.mpr (le_trans (strLe_iff.mp hab) (strLe_iff.mp hbc))

/-- `strLe` is total. -/
theorem strLe_total : ∀ a b : String, strLe a b || strLe b a := by
  intro a b
  rcases le_total a b with h | h <;> simp [strLe, h]

/-- Sorting with `strLe` yields a `≤`-sorted list. -/
theorem sorted_mergeSort_strLe (l : List String) :
    (l.mergeSort strLe).Pairwise (fun a b => a ≤ b) := by
  have h : (l.mergeSort strLe).Pairwise (fun a b => strLe a b) :=
    List.sorted_mergeSort strLe_trans strLe_total l
  exact h.imp (fun hab => strLe_iff.mp hab)

/-- Membership in the collected sub-directory names. -/
theorem mem_directoryNames {n : String} {entries : List FSEntry} :
    n ∈ directoryNames entries ↔
      (∃ sub, FSEntry.dir n sub ∈ entries) ∧ keepDir n = true := by
  simp only [directoryNames, List.mem_filterMap]
  constructor
  · rintro ⟨e, he, hf⟩
    cases e with
    | file m => simp at hf
    | dir m sub =>
      by_cases hk : keepDir m
      · simp only [hk, if_true] at hf
        obtain rfl := Option.some.inj hf
        exact ⟨⟨sub, he⟩, hk⟩
      · simp [hk] at hf
  · rintro ⟨⟨sub, he⟩, hk⟩
    exact ⟨FSEntry.dir n sub, he, by simp [hk]⟩

/-- Membership in the collected file names. -/
theorem mem_fileNames {n : String} {entries : List FSEntry} :
    n ∈ fileNames entries ↔ FSEntry.file n ∈ entries := by
  simp only [fileNames, List.mem_filterMap]
  constructor
  · rintro ⟨e, he, hf⟩
    cases e with
    | file m =>
      obtain rfl := Option.some.inj hf
      exact he
    | dir m sub => simp at hf
  · intro h
    exact ⟨FSEntry.file n, h, rfl⟩

/-- Membership in one directory listing: the folder nodes of the filtered
sub-directories plus the file nodes of all files. -/
theorem mem_directoryItems {x : PNode} {d : String} {entries : List FSEntry} :
    x ∈ directoryItems d entries ↔
      (∃ n sub, FSEntry.dir n sub ∈ entries ∧ keepDir n = true ∧
        x = PNode.folder n (pjoin d n)) ∨
      (∃ n, FSEntry.file n ∈ entries ∧ x = PNode.file n (pjoin d n)) := by
  simp only [directoryItems, List.mem_append, List.mem_map, List.mem_mergeSort,
    mem_directoryNames, mem_fileNames]
  constructor
  · rintro (⟨n, ⟨⟨sub, hs⟩, hk⟩, rfl⟩ | ⟨n, hf, rfl⟩)
    · exact Or.inl ⟨n, sub, hs, hk, rfl⟩
    · exact Or.inr ⟨n, hf, rfl⟩
  · rintro (⟨n, sub, hs, hk, rfl⟩ | ⟨n, hf, rfl⟩)
    · exact Or.inl ⟨n, ⟨⟨sub, hs⟩, hk⟩, rfl⟩
    · exact Or.inr ⟨n, hf, rfl⟩

/-- Unfolding of the directory filter into its three conjuncts. -/
theorem keepDir_iff {n : String} :
    keepDir n = true ↔
      n ≠ "node_modules" ∧ n ≠ ".git" ∧ startsWithDot n = false := by
  simp [keepDir, Bool.and_eq_true, bne_iff_ne, Bool.not_eq_true', and_assoc]

/-- Structural properties of one lazy-provider listing: the exclusion
filter applies only to directory entries, every file entry appears, folder
nodes precede file nodes, and each group is sorted. -/
theorem directoryItems_structure (d : String) (entries : List FSEntry) :
    (∀ n p, PNode.folder n p ∈ directoryItems d entries →
      n ≠ "node_modules" ∧ n ≠ ".git" ∧ startsWithDot n = false) ∧
    (∀ n, FSEntry.file n ∈ entries →
      PNode.file n (pjoin d n) ∈ directoryItems d entries) ∧
    (∀ n sub, FSEntry.dir n sub ∈ entries → keepDir n = true →
      PNode.folder n (pjoin d n) ∈ directoryItems d entries) ∧
    (directoryItems d entries).Pairwise
      (fun a b => ¬(a.isFile = true ∧ b.isFolder = true)) ∧
    ((directoryItems d entries).filterMap PNode.folderName).Pairwise
      (fun a b => a ≤ b) ∧
    ((directoryItems d entries).filterMap PNode.fileName).Pairwise
      (fun a b => a ≤ b) := by
  refine ⟨?_, ?_, ?_, ?_, ?_, ?_⟩
  · intro n p hmem
    rcases mem_directoryItems.mp hmem with ⟨m, sub, _, hk, heq⟩ | ⟨m, _, heq⟩
    · obtain ⟨rfl, -⟩ := PNode.folder.inj heq
      exact keepDir_iff.mp hk
    · exact absurd heq (by simp)
  · intro n hf
    exact mem_directoryItems.mpr (Or.inr ⟨n, hf, rfl⟩)
  · intro n sub hd hk
    exact mem_directoryItems.mpr (Or.inl ⟨n, sub, hd, hk, rfl⟩)
  · rw [directoryItems, List.pairwise_append]
    refine ⟨?_, ?_, ?_⟩
    · exact List.pairwise_map.mpr
        (List.pairwise_of_forall (fun x y => by simp [PNode.isFile]))
    · exact List.pairwise_map.mpr
        (List.pairwise_of_forall (fun x y => by simp [PNode.isFolder]))
    · intro a ha b hb
      obtain ⟨n, -, rfl⟩ := List.mem_map.mp ha
      simp [PNode.isFile]
  · rw [directoryItems, List.filterMap_append]
    have h1 : (((directoryNames entries).mergeSort strLe).map
        (fun n => PNode.folder n (pjoin d n))).filterMap PNode.folderName =
        (directoryNames entries).mergeSort strLe := by
      rw [List.filterMap_map]
      exact List.filterMap_some _
    have h2 : (((fileNames entries).mergeSort strLe).map
        (fun n => PNode.file n (pjoin d n))).filterMap PNode.folderName = [] := by
      rw [List.filterMap_map]
      exact List.filterMap_eq_nil_iff.mpr (fun a _ => rfl)
    rw [h1, h2, List.append_nil]
    exact sorted_mergeSort_strLe _
  · rw [directoryItems, List.filterMap_append]
    have h1 : (((directoryNames entries).mergeSort strLe).map
        (fun n => PNode.folder n (pjoin d n))).filterMap PNode.fileName = [] := by
      rw [List.filterMap_map]
      exact List.filterMap_eq_nil_iff.mpr (fun a _ => rfl)
    have h2 : (((fileNames entries).mergeSort strLe).map
        (fun n => PNode.file n (pjoin d n))).filterMap PNode.fileName =
        (fileNames entries).mergeSort strLe := by
      rw [List.filterMap_map]
      exact List.filterMap_some _
    rw [h1, h2, List.nil_append]
    exact sorted_mergeSort_strLe _

/-- Claim C7: a directory whose read fails yields an empty listing plus a
log line, and the failure aborts neither variant: the lazy provider
returns no items for that directory, and in the eager traversal the
enclosing directory's remaining entries are still processed. -/
theorem unreadable_directory_resilience (d n e : String)
    (rest : List FSEntry) (hk : keepDir n = true) :
    getDirectoryContents (pjoin d n) (Except.error e) =
      ([], ["Error reading directory: " ++ e]) ∧
    (getFilesRecursively (pjoin d n) (Except.error e)).1 = [] ∧
    getFilesRecursively d
        (Except.ok (FSEntry.dir n (Except.error e) :: rest)) =
      (PNode.folder n (pjoin d n) :: (eagerEntries d rest).1,
       ("Error reading directory: " ++ e) :: (eagerEntries d rest).2) := by
  refine ⟨rfl, ?_, ?_⟩
  · simp [getFilesRecursively]
  · rw [getFilesRecursively, eagerEntries, if_pos hk]
    simp [getFilesRecursively]

/-- Concrete instance of `unreadable_directory_resilience`: an unreadable
sub-directory "sub" is listed as a folder, contributes no children, logs
the error, and its sibling file is still traversed. -/
theorem unreadable_directory_resilience_w :
    getFilesRecursively "/ws"
        (Except.ok [FSEntry.dir "sub" (Except.error "EACCES"),
                    FSEntry.file "a.txt"]) =
      (PNode.folder "sub" (pjoin "/ws" "sub") ::
        (eagerEntries "/ws" [FSEntry.file "a.txt"]).1,
       ("Error reading directory: " ++ "EACCES") ::
        (eagerEntries "/ws" [FSEntry.file "a.txt"]).2) := by
  have h := unreadable_directory_resilience "/ws" "sub" "EACCES"
    [FSEntry.file "a.txt"] (by decide)
  exact h.2.2

/-- Membership in the eager flat list over one directory's entries. -/
theorem mem_eagerEntries {x : PNode} {d : String} : ∀ {entries : List FSEntry},
    x ∈ (eagerEntries d entries).1 ↔
      (∃ n sub, FSEntry.dir n sub ∈ entries ∧ keepDir n = true ∧
        (x = PNode.folder n (pjoin d n) ∨
          x ∈ (getFilesRecursively (pjoin d n) sub).1)) ∨
      (∃ n, FSEntry.file n ∈ entries ∧ x = PNode.file n (pjoin d n)) := by
  intro entries
  induction entries with
  | nil => simp [eagerEntries]
  | cons e rest ih =>
    cases e with
    | file m =>
      rw [eagerEntries]
      simp only [List.mem_cons, ih]
      constructor
      · rintro (rfl | (⟨n, sub, hmem, hk, hx⟩ | ⟨n, hmem, rfl⟩))
        · exact Or.inr ⟨m, Or.inl rfl, rfl⟩
        · exact Or.inl ⟨n, sub, Or.inr hmem, hk, hx⟩
        · exact Or.inr ⟨n, Or.inr hmem, rfl⟩
      · rintro (⟨n, sub, hmem, hk, hx⟩ | ⟨n, hmem, rfl⟩)
        · rcases hmem with heq | hmem
          · exact absurd heq (by simp)
          · exact Or.inr (Or.inl ⟨n, sub, hmem, hk, hx⟩)
        · rcases hmem with heq | hmem
          · obtain ⟨rfl, -⟩ := FSEntry.file.inj heq
            exact Or.inl rfl
          · exact Or.inr (Or.inr ⟨n, hmem, rfl⟩)
    | dir m sub =>
      rw [eagerEntries]
      by_cases hk : keepDir m
      · simp only [hk, if_true, List.mem_cons, List.mem_append, ih]
        constructor
        · rintro (rfl | (hx | (⟨n, sub', hmem, hk', hx⟩ | ⟨n, hmem, rfl⟩)))
          · exact Or.inl ⟨m, sub, Or.inl rfl, hk, Or.inl rfl⟩
          · exact Or.inl ⟨m, sub, Or.inl rfl, hk, Or.inr hx⟩
          · exact Or.inl ⟨n, sub', Or.inr hmem, hk', hx⟩
          · exact Or.inr ⟨n, Or.inr hmem, rfl⟩
        · rintro (⟨n, sub', hmem, hk', hx⟩ | ⟨n, hmem, rfl⟩)
          · rcases hmem with heq | hmem
            · obtain ⟨rfl, rfl⟩ := FSEntry.dir.inj heq
              rcases hx with rfl | hx
              · exact Or.inl rfl
              · exact Or.inr (Or.inl hx)
            · exact Or.inr (Or.inr (Or.inl ⟨n, sub', hmem, hk', hx⟩))
          · rcases hmem with heq | hmem
            · exact absurd heq (by simp)
            · exact Or.inr (Or.inr (Or.inr ⟨n, hmem, rfl⟩))
      · rw [if_neg hk]
        simp only [List.mem_cons, ih]
        constructor
        · rintro (⟨n, sub', hmem, hk', hx⟩ | ⟨n, hmem, rfl⟩)
          · exact Or.inl ⟨n, sub', Or.inr hmem, hk', hx⟩
          · exact Or.inr ⟨n, Or.inr hmem, rfl⟩
        · rintro (⟨n, sub', hmem, hk', hx⟩ | ⟨n, hmem, rfl⟩)
          · rcases hmem with heq | hmem
            · obtain ⟨rfl, rfl⟩ := FSEntry.dir.inj heq
              exact absurd hk' hk
            · exact Or.inl ⟨n, sub', hmem, hk', hx⟩
          · rcases hmem with heq | hmem
            · exact absurd heq (by simp)
            · exact Or.inr ⟨n, hmem, rfl⟩

/-- Membership among the nodes reachable strictly below one listing. -/
theorem mem_lazyExpand {x : PNode} {d : String} : ∀ {entries : List FSEntry},
    x ∈ lazyExpand d entries ↔
      ∃ n sub, FSEntry.dir n sub ∈ entries ∧ keepDir n = true ∧
        x ∈ lazyReachable (pjoin d n) sub := by
  intro entries
  induction entries with
  | nil => simp [lazyExpand]
  | cons e rest ih =>
    cases e with
    | file m =>
      rw [lazyExpand]
      simp only [ih, List.mem_cons]
      constructor
      · rintro ⟨n, sub, hmem, hk, hx⟩
        exact ⟨n, sub, Or.inr hmem, hk, hx⟩
      · rintro ⟨n, sub, heq | hmem, hk, hx⟩
        · exact absurd heq (by simp)
        · exact ⟨n, sub, hmem, hk, hx⟩
    | dir m sub =>
      rw [lazyExpand]
      by_cases hk : keepDir m
      · simp only [hk, if_true, List.mem_append, ih, List.mem_cons]
        constructor
        · rintro (hx | ⟨n, sub', hmem, hk', hx⟩)
          · exact ⟨m, sub, Or.inl rfl, hk, hx⟩
          · exact ⟨n, sub', Or.inr hmem, hk', hx⟩
        · rintro ⟨n, sub', heq | hmem, hk', hx⟩
          · obtain ⟨rfl, rfl⟩ := FSEntry.dir.inj heq
            exact Or.inl hx
          · exact Or.inr ⟨n, sub', hmem, hk', hx⟩
      · rw [if_neg hk]
        simp only [ih, List.mem_cons]
        constructor
        · rintro ⟨n, sub', hmem, hk', hx⟩
          exact ⟨n, sub', Or.inr hmem, hk', hx⟩
        · rintro ⟨n, sub', heq | hmem, hk', hx⟩
          · obtain ⟨rfl, rfl⟩ := FSEntry.dir.inj heq
            exact absurd hk' hk
          · exact ⟨n, sub', hmem, hk', hx⟩

/-- Strong-induction core of the eager/lazy equivalence, measured by the
size of the directory tree. -/
theorem eager_lazy_aux : ∀ (k : Nat) (d : String)
    (read : Except String (List FSEntry)), sizeOf read ≤ k → ∀ x : PNode,
    (x ∈ (getFilesRecursively d read).1 ↔ x ∈ lazyReachable d read) := by
  intro k
  induction k with
  | zero =>
    intro d read h x
    exact absurd h (by cases read <;> simp)
  | succ k ih =>
    intro d read hle x
    cases read with
    | error e => simp [getFilesRecursively, lazyReachable]
    | ok entries =>
      rw [getFilesRecursively, lazyReachable]
      rw [mem_eagerEntries, List.mem_append, mem_directoryItems, mem_lazyExpand]
      constructor
      · rintro (⟨n, sub, hmem, hk, rfl | hx⟩ | ⟨n, hmem, rfl⟩)
        · exact Or.inl (Or.inl ⟨n, sub, hmem, hk, rfl⟩)
        · have hsub : sizeOf sub ≤ k := by
            have h1 := List.sizeOf_lt_of_mem hmem
            have h2 : sizeOf sub < sizeOf (FSEntry.dir n sub) := by
              simp
            simp at hle
            omega
          exact Or.inr ⟨n, sub, hmem, hk, (ih (pjoin d n) sub hsub x).mp hx⟩
        · exact Or.inl (Or.inr ⟨n, hmem, rfl⟩)
      · rintro ((⟨n, sub, hmem, hk, rfl⟩ | ⟨n, hmem, rfl⟩) | ⟨n, sub, hmem, hk, hx⟩)
        · exact Or.inl ⟨n, sub, hmem, hk, Or.inl rfl⟩
        · exact Or.inr ⟨n, hmem, rfl⟩
        · have hsub : sizeOf sub ≤ k := by
            have h1 := List.sizeOf_lt_of_mem hmem
            have h2 : sizeOf sub < sizeOf (FSEntry.dir n sub) := by
              simp
            simp at hle
            omega
          exact Or.inl ⟨n, sub, hmem, hk, Or.inr ((ih (pjoin d n) sub hsub x).mpr hx)⟩

/-- Claim C8: for every directory tree, the eager variant's flat list
contains exactly the nodes reachable in the lazy variant by starting at
the root listing and repeatedly requesting the children of every folder
node. -/
theorem eager_lazy_same_nodes (d : String)
    (read : Except String (List FSEntry)) (x : PNode) :
    x ∈ (getFilesRecursively d read).1 ↔ x ∈ lazyReachable d read :=
  eager_lazy_aux (sizeOf read) d read (Nat.le_refl _) x

/-- Every folder node anywhere in the eager flat list was created for a
sub-directory that passed the filter, at any depth (strong induction on
the tree size). -/
theorem eager_folders_filter_aux : ∀ (k : Nat) (d : String)
    (read : Except String (List FSEntry)), sizeOf read ≤ k →
    ∀ n p, PNode.folder n p ∈ (getFilesRecursively d read).1 →
      keepDir n = true := by
  intro k
  induction k with
  | zero =>
    intro d read h
    exact absurd h (by cases read <;> simp)
  | succ k ih =>
    intro d read hle n p hmem
    cases read with
    | error e => simp [getFilesRecursively] at hmem
    | ok entries =>
      rw [getFilesRecursively, mem_eagerEntries] at hmem
      rcases hmem with ⟨m, sub, hm, hk, heq | hx⟩ | ⟨m, hm, heq⟩
      · obtain ⟨rfl, -⟩ := PNode.folder.inj heq
        exact hk
      · have hsub : sizeOf sub ≤ k := by
          have h1 := List.sizeOf_lt_of_mem hm
          have h2 : sizeOf sub < sizeOf (FSEntry.dir m sub) := by
            simp
          simp at hle
          omega
        exact ih (pjoin d m) sub hsub n p hx
      · exact absurd heq (by simp)

/-- Claim C3 (amended): the exclusion filter applies only to directory
entries in both cited operations.  The lazy provider's single-directory
listing (`getDirectoryContents`) lists a sub-directory exactly when its
name is neither "node_modules" nor ".git" nor dot-prefixed, lists every
file entry regardless of its name, places all folder nodes before all
file nodes, and sorts each of the two groups lexicographically by name.
The eager traversal (`getFilesRecursively`) applies the same
sub-directory exclusion at every depth and likewise emits every file
entry, but it provides no ordering: it emits nodes in readdir order,
interleaving each kept sub-directory's subtree, with no sort and no
directories-before-files partition (exhibited by the counterexample). -/
theorem directory_listing_structure (d : String) (entries : List FSEntry) :
    ((∀ n p, PNode.folder n p ∈ directoryItems d entries →
       n ≠ "node_modules" ∧ n ≠ ".git" ∧ startsWithDot n = false) ∧
     (∀ n, FSEntry.file n ∈ entries →
       PNode.file n (pjoin d n) ∈ directoryItems d entries) ∧
     (∀ n sub, FSEntry.dir n sub ∈ entries → keepDir n = true →
       PNode.folder n (pjoin d n) ∈ directoryItems d entries) ∧
     (directoryItems d entries).Pairwise
       (fun a b => ¬(a.isFile = true ∧ b.isFolder = true)) ∧
     ((directoryItems d entries).filterMap PNode.folderName).Pairwise
       (fun a b => a ≤ b) ∧
     ((directoryItems d entries).filterMap PNode.fileName).Pairwise
       (fun a b => a ≤ b)) ∧
    ((∀ n p,
       PNode.folder n p ∈ (getFilesRecursively d (Except.ok entries)).1 →
       n ≠ "node_modules" ∧ n ≠ ".git" ∧ startsWithDot n = false) ∧
     (∀ n, FSEntry.file n ∈ entries →
       PNode.file n (pjoin d n) ∈
         (getFilesRecursively d (Except.ok entries)).1) ∧
     (∀ n sub, FSEntry.dir n sub ∈ entries → keepDir n = true →
       PNode.folder n (pjoin d n) ∈
         (getFilesRecursively d (Except.ok entries)).1)) := by
  refine ⟨directoryItems_structure d entries, ?_, ?_, ?_⟩
  · intro n p hmem
    exact keepDir_iff.mp
      (eager_folders_filter_aux (sizeOf (Except.ok entries : Except String (List FSEntry)))
        d (Except.ok entries) (Nat.le_refl _) n p hmem)
  · intro n hf
    rw [getFilesRecursively, mem_eagerEntries]
    exact Or.inr ⟨n, hf, rfl⟩
  · intro n sub hd hk
    rw [getFilesRecursively, mem_eagerEntries]
    exact Or.inl ⟨n, sub, hd, hk, Or.inl rfl⟩

/-- Concrete instance of `directory_listing_structure`: in a directory
with file "a.txt" and sub-directory "src", both appear in the lazy
listing and both appear in the eager flat list. -/
theorem directory_listing_structure_w :
    PNode.file "a.txt" (pjoin "/ws" "a.txt") ∈
      directoryItems "/ws"
        [FSEntry.file "a.txt", FSEntry.dir "src" (Except.ok [])] ∧
    PNode.folder "src" (pjoin "/ws" "src") ∈
      directoryItems "/ws"
        [FSEntry.file "a.txt", FSEntry.dir "src" (Except.ok [])] ∧
    PNode.file "a.txt" (pjoin "/ws" "a.txt") ∈
      (getFilesRecursively "/ws"
        (Except.ok [FSEntry.file "a.txt", FSEntry.dir "src" (Except.ok [])])).1 := by
  have h := directory_listing_structure "/ws"
    [FSEntry.file "a.txt", FSEntry.dir "src" (Except.ok [])]
  exact ⟨h.1.2.1 "a.txt" (by simp),
    h.1.2.2.1 "src" (Except.ok []) (by simp) (by decide),
    h.2.2.1 "a.txt" (by simp)⟩

/-- Claim C3 as frozen is false on both cited operations.  First, the
exclusion filter is applied only to directory entries, so a file named
".hidden" — dot-prefixed — does appear in the lazy listing.  Second, the
eager traversal does not order directories before files (it lists file
"a.txt" before folder "src", in readdir order) and does not sort (it
lists "b.txt" before "a.txt", in readdir order). -/
theorem directory_listing_counterexamples :
    (PNode.file ".hidden" (pjoin "/ws" ".hidden") ∈
       directoryItems "/ws" [FSEntry.file ".hidden"] ∧
     startsWithDot ".hidden" = true) ∧
    (getFilesRecursively "/ws"
        (Except.ok [FSEntry.file "a.txt", FSEntry.dir "src" (Except.ok [])])).1 =
      [PNode.file "a.txt" (pjoin "/ws" "a.txt"),
       PNode.folder "src" (pjoin "/ws" "src")] ∧
    (getFilesRecursively "/ws"
        (Except.ok [FSEntry.file "b.txt", FSEntry.file "a.txt"])).1 =
      [PNode.file "b.txt" (pjoin "/ws" "b.txt"),
       PNode.file "a.txt" (pjoin "/ws" "a.txt")] := by
  refine ⟨⟨mem_directoryItems.mpr (Or.inr ⟨".hidden", by simp, rfl⟩),
    by decide⟩, ?_, ?_⟩
  · simp [getFilesRecursively, eagerEntries,
      show keepDir "src" = true from by decide]
  · simp [getFilesRecursively, eagerEntries]
